import Mathlib

/-!
Verification of the glyph-layout and text-compositing engine of
`extol_image_font` (`src/lib.rs`, `src/loader.rs`).

Strings are modelled as `List Char` (Rust iterates `str::chars`, i.e. Unicode
scalar values).  `f32` glyph coordinates are modelled as exact rationals `ℚ`;
all values arising in the code are small integer ratios, so the exact model
agrees with `f32` on every case treated below.  `HashMap` is modelled as an
association list with last-insert-wins lookup; iteration order of a map that
is only iterated once (in `from_char_map`) is the list order.

Rust panics (index out of bounds, `expect`, the `assert!` inside
`image::GenericImageView::view`) are modelled as explicit `panicked` / `none`
outcomes, distinct from the typed `Err` results.
-/

attribute [local semireducible] Rat.add Rat.mul Rat.sub Rat.inv

namespace ExtolImageFont

/-- Embedding of a `u32`/`usize` cast into `ℚ` (Rust `as f32` on small naturals
is exact). -/
def natQ (n : ℕ) : ℚ := mkRat n 1

/-- `f32::max` (both arguments are ordinary numbers in every use below). -/
def fmax (a b : ℚ) : ℚ := if a ≤ b then b else a

/-- `f32::min`, used by `Vec2::min` inside `Rect::from_corners`. -/
def fmin (a b : ℚ) : ℚ := if a ≤ b then a else b

/-- Computable integer ceiling of a rational. -/
def ceilI (q : ℚ) : ℤ := -Rat.floor (-q)

/-- Rust `q.ceil() as u32`: ceiling, then saturating cast (negative to 0). -/
def ceilU32 (q : ℚ) : ℕ := (ceilI q).toNat

/-- Rust `q as u32`: truncation toward zero with saturation at 0; on
non-negative values this is the floor, and negative values map to 0 either
way. -/
def truncU32 (q : ℚ) : ℕ := (Rat.floor q).toNat

/-- `bevy::math::Rect`: an axis-aligned rectangle with `f32` corners. -/
structure Rect where
  min_x : ℚ
  min_y : ℚ
  max_x : ℚ
  max_y : ℚ
  deriving DecidableEq

/-- `Rect::width`. -/
def Rect.width (r : Rect) : ℚ := r.max_x - r.min_x

/-- `Rect::height`. -/
def Rect.height (r : Rect) : ℚ := r.max_y - r.min_y

/-- `Rect::new`, i.e. `Rect::from_corners` with componentwise min/max. -/
def Rect.new (x0 y0 x1 y1 : ℚ) : Rect :=
  ⟨fmin x0 x1, fmin y0 y1, fmax x0 x1, fmax y0 y1⟩

/-- `HashMap` lookup on the association-list model. -/
def map_get? {α : Type} (m : List (Char × α)) (c : Char) : Option α :=
  (m.find? (fun p => p.1 == c)).map (fun p => p.2)

/-- `HashMap::insert`: the new binding shadows (replaces) any old binding of
the same key. -/
def map_insert {α : Type} (m : List (Char × α)) (c : Char) (v : α) : List (Char × α) :=
  (c, v) :: m.filter (fun p => p.1 != c)

/-- `ImageFont` (`src/lib.rs`): `layout.textures` plus the character-to-index
map.  The `texture : Handle<Image>` field is modelled by passing the result of
the image-store lookup directly to `render_text`. -/
structure ImageFont where
  textures : List Rect
  index_map : List (Char × ℕ)
  deriving DecidableEq

/-- `ImageFont::filter_string`: keep exactly the characters that are keys of
`index_map`, in order, with multiplicity. -/
def ImageFont.filter_string (f : ImageFont) (s : List Char) : List Char :=
  s.filter (fun c => (map_get? f.index_map c).isSome)

/-- The loop body of `ImageFont::from_char_map`: for the `i`-th entry
`(c, rect)` of the iterated map, `index_map.insert(c, i)` and
`layout.add_texture(rect)` (which pushes `rect` at index `i`). -/
def from_char_map_loop :
    List (Char × Rect) → ℕ → List (Char × ℕ) → List Rect → List (Char × ℕ) × List Rect
  | [], _, im, tx => (im, tx)
  | (c, r) :: rest, i, im, tx => from_char_map_loop rest (i + 1) (map_insert im c i) (tx ++ [r])

/-- `ImageFont::from_char_map` (the `texture` handle and atlas size do not
affect the fields modelled here). -/
def from_char_map (char_map : List (Char × Rect)) : ImageFont :=
  ⟨(from_char_map_loop char_map 0 [] []).2, (from_char_map_loop char_map 0 [] []).1⟩

/-- The double indexing `layout.textures[image_font.index_map[&c]]` used by
`render_text`; `none` means one of the two Rust index operations would
panic. -/
def glyph_rect (f : ImageFont) (c : Char) : Option Rect :=
  match map_get? f.index_map c with
  | none => none
  | some i => f.textures[i]?

/-- Total accessor for a character's glyph rectangle (meaningful whenever
`glyph_rect` is `some`). -/
def rect_of (f : ImageFont) (c : Char) : Rect :=
  (glyph_rect f c).getD ⟨natQ 0, natQ 0, natQ 0, natQ 0⟩

/-- All glyph rectangles of a string, in order; `none` if any lookup would
panic. -/
def glyph_rects (f : ImageFont) : List Char → Option (List Rect)
  | [] => some []
  | c :: cs =>
    match glyph_rect f c, glyph_rects f cs with
    | some r, some rs => some (r :: rs)
    | _, _ => none

/-- `Iterator::reduce(f32::max)` on a non-empty list (the `[]` case is
unreachable in `render_text`, which is guarded by the empty-text check). -/
def reduce_max : List ℚ → ℚ
  | [] => natQ 0
  | h :: t => t.foldl fmax h

/-- `Iterator::reduce(|a, b| a + b)` on a non-empty list. -/
def reduce_sum : List ℚ → ℚ
  | [] => natQ 0
  | h :: t => t.foldl (fun a b => a + b) h

/-- An RGBA pixel (four `u8` channels, modelled as naturals). -/
structure Pix where
  r : ℕ
  g : ℕ
  b : ℕ
  a : ℕ
  deriving DecidableEq

/-- The four bytes of a pixel in buffer order. -/
def Pix.bytes (p : Pix) : List ℕ := [p.r, p.g, p.b, p.a]

/-- `image::RgbaImage`: dimensions plus pixel contents, functionally. -/
structure RgbaImage where
  width : ℕ
  height : ℕ
  pix : ℕ → ℕ → Pix

/-- `RgbaImage::new`: an all-zero (transparent black) image. -/
def RgbaImage.new (w h : ℕ) : RgbaImage := ⟨w, h, fun _ _ => ⟨0, 0, 0, 0⟩⟩

/-- Read a byte of a raw buffer (out-of-range reads never occur on the paths
proved below; 0 is a dummy). -/
def byte_at (data : List ℕ) (i : ℕ) : ℕ := data.getD i 0

/-- The pixel at `(x, y)` of a row-major RGBA8 byte buffer of width `w`,
as read through `ImageBuffer::from_raw`. -/
def pix_of_bytes (data : List ℕ) (w x y : ℕ) : Pix :=
  ⟨byte_at data (4 * (y * w + x)), byte_at data (4 * (y * w + x) + 1),
   byte_at data (4 * (y * w + x) + 2), byte_at data (4 * (y * w + x) + 3)⟩

/-- `RgbaImage::into_vec`: the row-major RGBA8 byte buffer. -/
def RgbaImage.into_vec (img : RgbaImage) : List ℕ :=
  (List.range img.height).flatMap fun y =>
    (List.range img.width).flatMap fun x => (img.pix x y).bytes

/-- `bevy::render::render_resource::TextureFormat` (the one format used). -/
inductive TextureFormat where
  | rgba8UnormSrgb
  deriving DecidableEq

/-- `bevy::render::texture::ImageSampler`: `Image::new` leaves the field at
`ImageSampler::Default`; `render_text` overwrites it with
`ImageSampler::nearest()` on the non-empty path only. -/
inductive ImageSampler where
  | default
  | nearest
  deriving DecidableEq

/-- `bevy::prelude::Image`, restricted to the fields `render_text`
determines: extent, raw data, texture format and sampler. -/
structure BevyImage where
  width : ℕ
  height : ℕ
  data : List ℕ
  format : TextureFormat
  sampler : ImageSampler
  deriving DecidableEq

/-- The pixel at `(x, y)` of a `BevyImage`'s byte buffer, as four bytes. -/
def pixel_bytes_at (img : BevyImage) (x y : ℕ) : List ℕ :=
  [byte_at img.data (4 * (y * img.width + x)), byte_at img.data (4 * (y * img.width + x) + 1),
   byte_at img.data (4 * (y * img.width + x) + 2), byte_at img.data (4 * (y * img.width + x) + 3)]

/-- The subset of `ImageFontPluginError` reachable from `render_text`. -/
inductive ImageFontPluginError where
  | missingImageFontAsset
  | missingTextureAsset
  | unknownError
  | copyFailure
  deriving DecidableEq

/-- Result of the blit loop: `panicked` models the `assert!` inside
`GenericImageView::view` (the source rectangle exceeds the source image);
`failed` models the `Err(..)` of `GenericImage::copy_from` (the copied block
does not fit inside the target image), which `?` turns into `CopyFailure`. -/
inductive CopyOutcome where
  | panicked
  | failed
  | ok (img : RgbaImage)

/-- One `copy_from` of the `w × h` block of `src` at `(vx, vy)` into `out` at
`(x, 0)` (bounds already checked by the caller). -/
def blit (out src : RgbaImage) (vx vy w h x : ℕ) : RgbaImage :=
  ⟨out.width, out.height, fun px py =>
    if x ≤ px ∧ px < x + w ∧ py < h then src.pix (vx + (px - x)) (vy + py) else out.pix px py⟩

/-- The glyph-copying loop of `render_text` (`for c in text.chars()`):
advances the cursor `x` by each glyph's ceiling-rounded width.  The order of
checks follows the code: the `view` bounds assertion fires (panic) before
`copy_from`'s target-fit check can return an `Err`. -/
def copy_glyphs (src : RgbaImage) (f : ImageFont) :
    List Char → ℕ → RgbaImage → CopyOutcome
  | [], _, out => .ok out
  | c :: cs, x, out =>
    match glyph_rect f c with
    | none => .panicked
    | some rect =>
      if truncU32 rect.min_x + ceilU32 rect.width ≤ src.width ∧
          truncU32 rect.min_y + ceilU32 rect.height ≤ src.height then
        if out.width < ceilU32 rect.width + x ∨ out.height < ceilU32 rect.height then .failed
        else
          copy_glyphs src f cs (x + ceilU32 rect.width)
            (blit out src (truncU32 rect.min_x) (truncU32 rect.min_y)
              (ceilU32 rect.width) (ceilU32 rect.height) x)
      else .panicked

/-- The source pixel index chosen by `image::imageops::resize` with
`FilterType::Nearest` for output index `i`: the source pixel whose centre is
nearest to the centre of output pixel `i` (clamped into range). -/
def nearest_idx (i src_n out_n : ℕ) : ℕ :=
  min (src_n - 1) (truncU32 (natQ (2 * i + 1) * natQ src_n / natQ (2 * out_n)))

/-- `image::imageops::resize(_, nw, nh, FilterType::Nearest)`: every output
pixel is a pixel of the source image (no interpolation). -/
def resize_nearest (src : RgbaImage) (nw nh : ℕ) : RgbaImage :=
  ⟨nw, nh, fun x y => src.pix (nearest_idx x src.width nw) (nearest_idx y src.height nh)⟩

/-- The `if let Some(font_height) = image_font_text.font_height` block:
`new_width = (width as f32 * font_height / height as f32) as u32` and the
requested height is likewise truncated by `as u32`. -/
def apply_font_height (canvas : RgbaImage) : Option ℚ → RgbaImage
  | none => canvas
  | some fh =>
    resize_nearest canvas (truncU32 (natQ canvas.width * fh / natQ canvas.height)) (truncU32 fh)

/-- Outcome of `render_text`: a typed error, a returned image, or a Rust
panic (which the function's `Result` type cannot report). -/
inductive RenderOutcome where
  | panicked
  | error (e : ImageFontPluginError)
  | ok (img : BevyImage)
  deriving DecidableEq

/-- `render_text` after the two asset lookups and `filter_string`
(lines 208-282 of `src/lib.rs`), operating on the already-filtered text. -/
def render_filtered (f : ImageFont) (ft : BevyImage) (text : List Char)
    (font_height : Option ℚ) : RenderOutcome :=
  if text = [] then
    .ok ⟨0, 0, [], .rgba8UnormSrgb, .default⟩
  else
    match glyph_rects f text with
    | none => .panicked
    | some rects =>
      if ft.data.length < 4 * (ft.width * ft.height) then .error .unknownError
      else
        match copy_glyphs ⟨ft.width, ft.height, pix_of_bytes ft.data ft.width⟩ f text 0
            (RgbaImage.new (ceilU32 (reduce_sum (rects.map Rect.width)))
              (ceilU32 (reduce_max (rects.map Rect.height)))) with
        | .panicked => .panicked
        | .failed => .error .copyFailure
        | .ok canvas =>
          .ok ⟨(apply_font_height canvas font_height).width,
            (apply_font_height canvas font_height).height,
            (apply_font_height canvas font_height).into_vec, .rgba8UnormSrgb, .nearest⟩

/-- `render_text` (`src/lib.rs`): the two `Assets` lookups are modelled as
`Option` arguments; `text` and `font_height` are the fields of the
`ImageFontText`. -/
def render_text (image_font : Option ImageFont) (font_texture : Option BevyImage)
    (text : List Char) (font_height : Option ℚ) : RenderOutcome :=
  match image_font with
  | none => .error .missingImageFontAsset
  | some f =>
    match font_texture with
    | none => .error .missingTextureAsset
    | some ft => render_filtered f ft (f.filter_string text) font_height

/-- `str::trim_start_matches('\n').trim_end_matches('\n')`: removes every
leading and every trailing newline (repeatedly, not just one). -/
def trim_newlines (s : List Char) : List Char :=
  (((s.dropWhile (fun c => c == '\n')).reverse.dropWhile (fun c => c == '\n'))).reverse

/-- Strip one trailing carriage return (the `\r\n` handling of
`str::lines`). -/
def strip_cr (l : List Char) : List Char :=
  if l.getLast? = some '\r' then l.dropLast else l

/-- `str::lines`: split on `'\n'`, strip a `'\r'` from each terminated line,
and drop a final empty segment (a trailing line ending is optional). -/
def str_lines (s : List Char) : List (List Char) :=
  (s.splitOn '\n').dropLast.map strip_cr ++
    (match (s.splitOn '\n').getLast? with
     | some [] => []
     | some l => [l]
     | none => [])

/-- The line list the `Automatic` grid resolver works on. -/
def auto_lines (desc : List Char) : List (List Char) :=
  str_lines (trim_newlines desc)

/-- `Iterator::max()` over a non-empty list of naturals (the `[]` case is the
`expect` panic, handled by the caller). -/
def reduce_max_nat : List ℕ → ℕ
  | [] => 0
  | h :: t => t.foldl max h

/-- `max_chars_per_line` of the grid resolver: the maximum `chars().count()`
over all lines. -/
def auto_max_chars (desc : List Char) : ℕ :=
  reduce_max_nat ((auto_lines desc).map List.length)

/-- `rect_width = (size.x / max_chars_per_line) as f32` (integer division). -/
def auto_cell_w (desc : List Char) (size_x : ℕ) : ℕ :=
  size_x / auto_max_chars desc

/-- `rect_height = (size.y / line_count) as f32` (integer division). -/
def auto_cell_h (desc : List Char) (size_y : ℕ) : ℕ :=
  size_y / (auto_lines desc).length

/-- The cell rectangle of grid row `r`, column `c`:
`Rect::new(rw*c, rh*r, rw*(c+1), rh*(r+1))`. -/
def cell_rect (rw rh r c : ℕ) : Rect :=
  Rect.new (natQ rw * natQ c) (natQ rh * natQ r) (natQ rw * natQ (c + 1)) (natQ rh * natQ (r + 1))

/-- `ImageFontLayout::into_char_map` on the `Automatic` variant
(`src/lib.rs` lines 376-417, duplicated in `src/loader.rs`).  `none` models a
panic: the `.expect(..)` on an empty line list, or (unreachably, see
`auto_max_chars_pos`) the `%`-by-zero that a zero `max_chars_per_line` would
cause on the warning line.  The two inexact-division warnings do not affect
control flow and are not modelled. -/
def into_char_map_automatic (desc : List Char) (size_x size_y : ℕ) :
    Option (List (Char × Rect)) :=
  if auto_lines desc = [] then none
  else if auto_max_chars desc = 0 then none
  else
    some ((auto_lines desc).enum.foldl
      (fun m rl => rl.2.enum.foldl
        (fun m ce =>
          map_insert m ce.2 (cell_rect (auto_cell_w desc size_x) (auto_cell_h desc size_y) rl.1 ce.1))
        m)
      [])

/-- The grid cells in row-major order (row, column, character), as iterated by
the resolver's nested loops. -/
def grid_entries (ls : List (List Char)) : List (ℕ × ℕ × Char) :=
  ls.enum.flatMap fun rl => rl.2.enum.map fun ce => (rl.1, ce.1, ce.2)

/-- One grid insertion, on a flattened row-major entry. -/
def grid_ins (rw rh : ℕ) (m : List (Char × Rect)) (e : ℕ × ℕ × Char) : List (Char × Rect) :=
  map_insert m e.2.2 (cell_rect rw rh e.1 e.2.1)

/-- Modelled from the spec: the `round(w0 * h1 / h0)` the spec prescribes for
the rescale pass (`f32::round`, half away from zero; all uses below are
non-negative).  Stated only to compare with the code's truncation. -/
def spec_round (q : ℚ) : ℕ := (Rat.floor (q + natQ 1 / natQ 2)).toNat

/-- Fixture: a font mapping `a` to the unit square at the origin. -/
def font_a : ImageFont := from_char_map [('a', ⟨natQ 0, natQ 0, natQ 1, natQ 1⟩)]

/-- Fixture: a 1×1 texture. -/
def tex_1x1 : BevyImage := ⟨1, 1, [9, 8, 7, 6], .rgba8UnormSrgb, .default⟩

/-- Fixture: a three-entry character map. -/
def cm_abc : List (Char × Rect) :=
  [('a', ⟨natQ 0, natQ 0, natQ 1, natQ 1⟩), ('b', ⟨natQ 0, natQ 0, natQ 1, natQ 1⟩),
    ('c', ⟨natQ 0, natQ 0, natQ 1, natQ 1⟩)]

/-- Fixture: a font mapping `a`, `b`, `c` to the unit square. -/
def font_abc : ImageFont := from_char_map cm_abc

/-- Fixture: a font whose glyph rectangle for `a` is 10×20, exceeding a 4×4
source image. -/
def font_oob : ImageFont := from_char_map [('a', ⟨natQ 0, natQ 0, natQ 10, natQ 20⟩)]

/-- Fixture: a 4×4 texture (64 zero bytes). -/
def tex_4x4 : BevyImage := ⟨4, 4, List.replicate 64 0, .rgba8UnormSrgb, .default⟩

/-- Fixture: a font mapping `a` to a 3×2 rectangle. -/
def font_32 : ImageFont := from_char_map [('a', ⟨natQ 0, natQ 0, natQ 3, natQ 2⟩)]

/-- Fixture: a 3×2 texture with pairwise distinct bytes. -/
def tex_3x2 : BevyImage := ⟨3, 2, List.range 24, .rgba8UnormSrgb, .default⟩

/-- Fixture: the grid description `"AB\nCD"`. -/
def grid_AB_CD : List Char := ['A', 'B', '\n', 'C', 'D']

/-- Fixture: the resolved character map of `"AB\nCD"` against a 4×4 image. -/
def map_AB_CD : List (Char × Rect) := (into_char_map_automatic grid_AB_CD 4 4).getD []

/-- Fixture: the image `render_text` produces for `"a"` with `font_a` on
`tex_1x1`. -/
def img_a : BevyImage := ⟨1, 1, [9, 8, 7, 6], .rgba8UnormSrgb, .nearest⟩

/-- Fixture: the native render of `"a"` with `font_32` on `tex_3x2`. -/
def img_32n : BevyImage := ⟨3, 2, List.range 24, .rgba8UnormSrgb, .nearest⟩

/-- Fixture: the render of `"a"` with `font_32` on `tex_3x2` at target height
1: truncated width `trunc(3*1/2) = 1`, nearest pixel `(1, 1)`. -/
def img_32s : BevyImage := ⟨1, 1, [16, 17, 18, 19], .rgba8UnormSrgb, .nearest⟩

theorem natQ_eq (n : ℕ) : natQ n = (n : ℚ) := by
  simp [natQ]

theorem rat_floor_eq (q : ℚ) : Rat.floor q = ⌊q⌋ :=
  (Rat.floor_def' q).trans Rat.floor_def.symm

theorem ceilI_eq (q : ℚ) : ceilI q = ⌈q⌉ := by
  rw [ceilI, rat_floor_eq, Int.floor_neg, neg_neg]

theorem ceilU32_eq (q : ℚ) : ceilU32 q = ⌈q⌉.toNat := by
  rw [ceilU32, ceilI_eq]

theorem truncU32_eq (q : ℚ) : truncU32 q = ⌊q⌋.toNat := by
  rw [truncU32, rat_floor_eq]

theorem fmax_eq (a b : ℚ) : fmax a b = max a b :=
  (max_def a b).symm

theorem le_ceilU32 (q : ℚ) : q ≤ (ceilU32 q : ℚ) := by
  rw [ceilU32_eq]
  calc q ≤ (⌈q⌉ : ℚ) := Int.le_ceil q
    _ ≤ ((⌈q⌉.toNat : ℤ) : ℚ) := by exact_mod_cast Int.self_le_toNat ⌈q⌉
    _ = (⌈q⌉.toNat : ℚ) := by push_cast; rfl

theorem ceilU32_le_of_le {q : ℚ} {n : ℕ} (h : q ≤ (n : ℚ)) : ceilU32 q ≤ n := by
  rw [ceilU32_eq, Int.toNat_le]
  exact_mod_cast Int.ceil_le.mpr h

theorem foldl_add_eq (t : List ℚ) : ∀ a : ℚ, t.foldl (fun a b => a + b) a = a + t.sum := by
  induction t with
  | nil => intro a; simp
  | cons h t ih => intro a; simp only [List.foldl_cons, ih, List.sum_cons]; ring

theorem reduce_sum_eq (l : List ℚ) : reduce_sum l = l.sum := by
  cases l with
  | nil => simp [reduce_sum, natQ_eq]
  | cons h t => simp [reduce_sum, foldl_add_eq]

theorem map_get?_nil {α : Type} (c : Char) : map_get? ([] : List (Char × α)) c = none := rfl

theorem map_get?_insert_self {α : Type} (m : List (Char × α)) (c : Char) (v : α) :
    map_get? (map_insert m c v) c = some v := by
  simp [map_get?, map_insert, List.find?_cons]

theorem find?_filter_ne {α : Type} (m : List (Char × α)) (c cq : Char) (h : cq ≠ c) :
    (m.filter (fun p => p.1 != c)).find? (fun p => p.1 == cq) = m.find? (fun p => p.1 == cq) := by
  induction m with
  | nil => rfl
  | cons p m ih =>
    rcases eq_or_ne p.1 c with hp | hp
    · rw [List.filter_cons_of_neg (by simp [hp]),
        List.find?_cons_of_neg _ (by simp [hp]; exact fun hh => h hh.symm), ih]
    · rw [List.filter_cons_of_pos (by simp [hp])]
      rcases eq_or_ne p.1 cq with hq | hq
      · rw [List.find?_cons_of_pos _ (by simp [hq]), List.find?_cons_of_pos _ (by simp [hq])]
      · rw [List.find?_cons_of_neg _ (by simp [hq]), List.find?_cons_of_neg _ (by simp [hq]),
          ih]

theorem map_get?_insert_ne {α : Type} (m : List (Char × α)) (c cq : Char) (v : α)
    (h : cq ≠ c) : map_get? (map_insert m c v) cq = map_get? m cq := by
  have hcc : (((c, v) : Char × α).1 == cq) = false := by
    simp only [beq_eq_false_iff_ne, ne_eq]
    exact fun hc => h hc.symm
  simp only [map_get?, map_insert, List.find?_cons, hcc, find?_filter_ne m c cq h]

theorem map_get?_mem {α : Type} {m : List (Char × α)} {c : Char} {v : α}
    (h : map_get? m c = some v) : (c, v) ∈ m := by
  unfold map_get? at h
  cases hf : m.find? (fun p => p.1 == c) with
  | none => rw [hf] at h; cases h
  | some p =>
    rw [hf] at h
    injection h with h
    have hkey : p.1 = c := by simpa using List.find?_some hf
    subst hkey
    subst h
    exact List.mem_of_find?_eq_some hf

/-- C2: if the filtered text is empty (empty input, or no character mapped),
`render_text` returns `Ok` with a 0×0 image whose byte buffer is empty, not an
error. -/
theorem render_text_empty_filtered (f : ImageFont) (ft : BevyImage) (s : List Char)
    (fh : Option ℚ) (h : f.filter_string s = []) :
    render_text (some f) (some ft) s fh = .ok ⟨0, 0, [], .rgba8UnormSrgb, .default⟩ := by
  simp only [render_text, h, render_filtered, if_pos]

theorem render_text_empty_filtered_witness :
    font_a.filter_string ['X'] = [] ∧
      render_text (some font_a) (some tex_1x1) ['X'] none =
        .ok ⟨0, 0, [], .rgba8UnormSrgb, .default⟩ :=
  ⟨by decide, render_text_empty_filtered font_a tex_1x1 ['X'] none (by decide)⟩

/-- C3: `render_text` depends on the input text only through its filtered
form: two texts that agree after dropping unmapped characters render to
byte-for-byte identical results. -/
theorem render_text_filter_invariance (f : ImageFont) (ft : BevyImage)
    (s₁ s₂ : List Char) (fh : Option ℚ) (h : f.filter_string s₁ = f.filter_string s₂) :
    render_text (some f) (some ft) s₁ fh = render_text (some f) (some ft) s₂ fh := by
  simp only [render_text, h]

theorem render_text_filter_invariance_witness :
    font_abc.filter_string ['a', 'X', 'b', 'X', 'c'] = font_abc.filter_string ['a', 'b', 'c'] ∧
      render_text (some font_abc) (some tex_1x1) ['a', 'X', 'b', 'X', 'c'] none =
        render_text (some font_abc) (some tex_1x1) ['a', 'b', 'c'] none :=
  ⟨by decide, render_text_filter_invariance font_abc tex_1x1 _ _ none (by decide)⟩

/-- C9 counterexample: a successful render (empty filtered text) is returned
with the constructor's default sampler, not the nearest-neighbor sampler the
claim asserts for every returned image. -/
theorem render_text_default_sampler_cex :
    render_text (some font_a) (some tex_1x1) ['X'] none =
        .ok ⟨0, 0, [], .rgba8UnormSrgb, .default⟩ ∧
      ImageSampler.default ≠ ImageSampler.nearest :=
  ⟨by decide, by decide⟩

/-- C9 (amended): every image returned by `render_text` has the RGBA8 sRGB
format; the nearest-neighbor sampler is set exactly on the non-empty path,
while the empty-filter early return keeps `Image::new`'s default sampler. -/
theorem render_text_format_and_sampler (f : ImageFont) (ft : BevyImage) (s : List Char)
    (fh : Option ℚ) (img : BevyImage)
    (hok : render_text (some f) (some ft) s fh = .ok img) :
    img.format = .rgba8UnormSrgb ∧
      (f.filter_string s = [] → img.sampler = .default) ∧
      (f.filter_string s ≠ [] → img.sampler = .nearest) := by
  simp only [render_text, render_filtered] at hok
  split at hok
  · rename_i hemp
    injection hok with him
    subst him
    exact ⟨rfl, fun _ => rfl, fun hne => absurd hemp hne⟩
  · rename_i hne
    split at hok
    · exact RenderOutcome.noConfusion hok
    · split at hok
      · exact RenderOutcome.noConfusion hok
      · split at hok
        · exact RenderOutcome.noConfusion hok
        · exact RenderOutcome.noConfusion hok
        · injection hok with him
          subst him
          exact ⟨rfl, fun hemp => absurd hemp hne, fun _ => rfl⟩

theorem render_text_format_and_sampler_witness :
    render_text (some font_a) (some tex_1x1) ['a'] none = .ok img_a ∧
      (img_a.format = .rgba8UnormSrgb ∧
        (font_a.filter_string ['a'] = [] → img_a.sampler = .default) ∧
        (font_a.filter_string ['a'] ≠ [] → img_a.sampler = .nearest)) :=
  ⟨by decide, render_text_format_and_sampler font_a tex_1x1 ['a'] none img_a (by decide)⟩

theorem glyph_rects_spec (f : ImageFont) (s : List Char) :
    ∀ rects, glyph_rects f s = some rects → rects = s.map (rect_of f) := by
  induction s with
  | nil =>
    intro rects h
    rw [glyph_rects] at h
    injection h with h
    exact h.symm
  | cons c cs ih =>
    intro rects h
    rw [glyph_rects] at h
    split at h
    · rename_i r rs hr hrs
      injection h with h
      subst h
      rw [List.map_cons, ← ih rs hrs]
      have : rect_of f c = r := by simp [rect_of, hr]
      rw [this]
    · exact Option.noConfusion h

theorem copy_glyphs_dims (src : RgbaImage) (f : ImageFont) (cs : List Char) :
    ∀ (x : ℕ) (out o : RgbaImage),
      copy_glyphs src f cs x out = .ok o → o.width = out.width ∧ o.height = out.height := by
  induction cs with
  | nil =>
    intro x out o h
    rw [copy_glyphs] at h
    injection h with h
    subst h
    exact ⟨rfl, rfl⟩
  | cons c cs ih =>
    intro x out o h
    rw [copy_glyphs] at h
    split at h
    · exact CopyOutcome.noConfusion h
    · split at h
      · split at h
        · exact CopyOutcome.noConfusion h
        · have hb := ih _ _ _ h
          exact ⟨hb.1, hb.2⟩
      · exact CopyOutcome.noConfusion h

theorem copy_glyphs_width_le (src : RgbaImage) (f : ImageFont) (cs : List Char) :
    ∀ (x : ℕ) (out o : RgbaImage),
      copy_glyphs src f cs x out = .ok o → cs ≠ [] →
      x + (cs.map (fun c => ceilU32 (rect_of f c).width)).sum ≤ out.width := by
  induction cs with
  | nil => intro x out o _ hne; exact absurd rfl hne
  | cons c cs ih =>
    intro x out o h _
    rw [copy_glyphs] at h
    split at h
    · exact CopyOutcome.noConfusion h
    · rename_i rect hr
      have hrect : rect_of f c = rect := by simp [rect_of, hr]
      split at h
      · split at h
        · exact CopyOutcome.noConfusion h
        · rename_i hdim
          push_neg at hdim
          cases cs with
          | nil =>
            simp only [List.map_cons, List.map_nil, List.sum_cons, List.sum_nil, hrect]
            omega
          | cons c2 cs2 =>
            have h2 := ih _ _ _ h (by simp)
            simp only [blit] at h2
            simp only [List.map_cons, List.sum_cons, hrect] at h2 ⊢
            omega
      · exact CopyOutcome.noConfusion h

theorem ceilU32_sum_le (l : List ℚ) : ceilU32 l.sum ≤ (l.map ceilU32).sum := by
  apply ceilU32_le_of_le
  have h1 : l.sum ≤ (l.map (fun q => ((ceilU32 q : ℕ) : ℚ))).sum := by
    conv_lhs => rw [← List.map_id l]
    exact List.sum_le_sum fun q _ => le_ceilU32 q
  have h2 : (l.map (fun q => ((ceilU32 q : ℕ) : ℚ))).sum = (((l.map ceilU32).sum : ℕ) : ℚ) := by
    rw [Nat.cast_list_sum, List.map_map]
    rfl
  rw [h2] at h1
  exact h1

/-- C1: when every character of a non-empty text is mapped and no rescale is
requested, a successfully returned image is exactly as wide as the sum of the
ceiling-rounded glyph widths and as tall as the ceiling of the maximum glyph
height.  (The code computes the canvas width as `ceil` of the exact sum, but
the copy loop succeeds only when that equals the sum of the per-glyph
ceilings, so the two agree on every `Ok` result.) -/
theorem render_text_ok_dims (f : ImageFont) (ft : BevyImage) (s : List Char) (img : BevyImage)
    (hne : s ≠ []) (hall : ∀ c ∈ s, (map_get? f.index_map c).isSome)
    (hok : render_text (some f) (some ft) s none = .ok img) :
    img.width = (s.map (fun c => ceilU32 (rect_of f c).width)).sum ∧
      img.height = ceilU32 (reduce_max (s.map (fun c => (rect_of f c).height))) := by
  have hfilt : f.filter_string s = s := List.filter_eq_self.mpr hall
  simp only [render_text, hfilt, render_filtered] at hok
  rw [if_neg hne] at hok
  split at hok
  · exact RenderOutcome.noConfusion hok
  · rename_i rects hrects
    have hrmap : rects = s.map (rect_of f) := glyph_rects_spec f s rects hrects
    subst hrmap
    split at hok
    · exact RenderOutcome.noConfusion hok
    · split at hok
      · exact RenderOutcome.noConfusion hok
      · exact RenderOutcome.noConfusion hok
      · rename_i canvas hcopy
        injection hok with him
        subst him
        have hdims := copy_glyphs_dims _ f s 0 _ canvas hcopy
        have hlow := copy_glyphs_width_le _ f s 0 _ canvas hcopy hne
        simp only [RgbaImage.new] at hdims hlow
        have hW :
            ceilU32 (reduce_sum ((s.map (rect_of f)).map Rect.width)) ≤
              (s.map (fun c => ceilU32 (rect_of f c).width)).sum := by
          rw [reduce_sum_eq]
          have := ceilU32_sum_le ((s.map (rect_of f)).map Rect.width)
          simpa [List.map_map, Function.comp] using this
        constructor
        · simp only [apply_font_height]
          rw [hdims.1]
          have hlow' :
              (s.map (fun c => ceilU32 (rect_of f c).width)).sum ≤
                ceilU32 (reduce_sum ((s.map (rect_of f)).map Rect.width)) := by
            simpa using hlow
          omega
        · simp only [apply_font_height]
          rw [hdims.2]
          simp [List.map_map, Function.comp_def]

theorem render_text_ok_dims_witness :
    (['a'] ≠ ([] : List Char)) ∧ (∀ c ∈ ['a'], (map_get? font_a.index_map c).isSome) ∧
      render_text (some font_a) (some tex_1x1) ['a'] none = .ok img_a ∧
      (img_a.width = (['a'].map fun c => ceilU32 (rect_of font_a c).width).sum ∧
        img_a.height = ceilU32 (reduce_max (['a'].map fun c => (rect_of font_a c).height))) :=
  ⟨by decide, by decide, by decide,
    render_text_ok_dims font_a tex_1x1 ['a'] img_a (by decide) (by decide) (by decide)⟩

theorem copy_glyphs_oob_ne_ok (src : RgbaImage) (f : ImageFont) (cs : List Char) (c : Char)
    (hoob : ¬ (truncU32 (rect_of f c).min_x + ceilU32 (rect_of f c).width ≤ src.width ∧
        truncU32 (rect_of f c).min_y + ceilU32 (rect_of f c).height ≤ src.height)) :
    ∀ (x : ℕ) (out : RgbaImage), c ∈ cs → ∀ o, copy_glyphs src f cs x out ≠ .ok o := by
  induction cs with
  | nil => intro x out hmem; cases hmem
  | cons c1 cs ih =>
    intro x out hmem o h
    rw [copy_glyphs] at h
    split at h
    · exact CopyOutcome.noConfusion h
    · rename_i rect hr
      split at h
      · rename_i hfit
        split at h
        · exact CopyOutcome.noConfusion h
        · rcases List.mem_cons.mp hmem with hceq | hmem2
          · subst hceq
            have hrect : rect_of f c = rect := by simp [rect_of, hr]
            rw [hrect] at hoob
            exact hoob hfit
          · exact ih _ _ hmem2 o h
      · exact CopyOutcome.noConfusion h

/-- C8 counterexample: a glyph rectangle exceeding the source image bounds
makes `render_text` panic (the bounds assertion inside
`GenericImageView::view`), not fail with the typed `CopyFailure` error the
claim asserts. -/
theorem render_text_oob_panic_cex :
    render_text (some font_oob) (some tex_4x4) ['a'] none = .panicked ∧
      RenderOutcome.panicked ≠ .error .copyFailure :=
  ⟨by decide, by decide⟩

/-- C8 (amended): if some surviving character's glyph rectangle (origin
truncated, extent ceiling-rounded) exceeds the source image bounds, then
`render_text` never returns an image — it panics at the source-bounds
assertion (or reports `CopyFailure` earlier if a preceding glyph misfits the
output canvas); there is no silent wraparound or truncated copy. -/
theorem render_text_oob_not_ok (f : ImageFont) (ft : BevyImage) (s : List Char)
    (fh : Option ℚ) (c : Char) (hc : c ∈ f.filter_string s)
    (hoob : ¬ (truncU32 (rect_of f c).min_x + ceilU32 (rect_of f c).width ≤ ft.width ∧
        truncU32 (rect_of f c).min_y + ceilU32 (rect_of f c).height ≤ ft.height)) :
    ∀ img, render_text (some f) (some ft) s fh ≠ .ok img := by
  intro img hok
  simp only [render_text, render_filtered] at hok
  split at hok
  · rename_i hemp
    rw [hemp] at hc
    cases hc
  · split at hok
    · exact RenderOutcome.noConfusion hok
    · split at hok
      · exact RenderOutcome.noConfusion hok
      · split at hok
        · exact RenderOutcome.noConfusion hok
        · exact RenderOutcome.noConfusion hok
        · rename_i canvas hcopy
          exact copy_glyphs_oob_ne_ok _ f _ c hoob 0 _ hc canvas hcopy

theorem render_text_oob_not_ok_witness :
    ('a' ∈ font_oob.filter_string ['a']) ∧
      (¬ (truncU32 (rect_of font_oob 'a').min_x + ceilU32 (rect_of font_oob 'a').width ≤
            tex_4x4.width ∧
          truncU32 (rect_of font_oob 'a').min_y + ceilU32 (rect_of font_oob 'a').height ≤
            tex_4x4.height)) ∧
      ∀ img, render_text (some font_oob) (some tex_4x4) ['a'] none ≠ .ok img :=
  ⟨by decide, by decide,
    render_text_oob_not_ok font_oob tex_4x4 ['a'] none 'a' (by decide) (by decide)⟩

theorem from_char_map_loop_tx (rest : List (Char × Rect)) :
    ∀ (i : ℕ) (im : List (Char × ℕ)) (tx : List Rect),
      (from_char_map_loop rest i im tx).2 = tx ++ rest.map Prod.snd := by
  induction rest with
  | nil => intro i im tx; simp [from_char_map_loop]
  | cons p rest ih =>
    intro i im tx
    cases p with
    | mk c r =>
      rw [from_char_map_loop, ih]
      simp

theorem from_char_map_loop_values_lt (rest : List (Char × Rect)) :
    ∀ (i : ℕ) (im : List (Char × ℕ)) (tx : List Rect) (n : ℕ),
      (∀ p ∈ im, p.2 < n) → i + rest.length ≤ n →
      ∀ p ∈ (from_char_map_loop rest i im tx).1, p.2 < n := by
  induction rest with
  | nil => intro i im tx n him _ p hp; exact him p hp
  | cons q rest ih =>
    intro i im tx n him hlen p hp
    cases q with
    | mk c r =>
      rw [from_char_map_loop] at hp
      refine ih (i + 1) _ _ n ?_ (by simp at hlen; omega) p hp
      intro p hpm
      rcases List.mem_cons.mp hpm with hpe | hpm2
      · subst hpe
        simp only
        simp at hlen
        omega
      · exact him p (List.mem_of_mem_filter hpm2)

theorem map_insert_length_of_none {α : Type} (m : List (Char × α)) (c : Char) (v : α)
    (h : map_get? m c = none) : (map_insert m c v).length = m.length + 1 := by
  have hfil : m.filter (fun p => p.1 != c) = m := by
    apply List.filter_eq_self.mpr
    intro p hp
    unfold map_get? at h
    cases hf : m.find? (fun p => p.1 == c) with
    | some q => rw [hf] at h; cases h
    | none =>
      have := List.find?_eq_none.mp hf p hp
      simpa using this
  simp [map_insert, hfil]

theorem from_char_map_loop_im_len (rest : List (Char × Rect)) :
    ∀ (i : ℕ) (im : List (Char × ℕ)) (tx : List Rect),
      (∀ ck ∈ rest.map Prod.fst, map_get? im ck = none) → (rest.map Prod.fst).Nodup →
      (from_char_map_loop rest i im tx).1.length = im.length + rest.length := by
  induction rest with
  | nil => intro i im tx _ _; simp [from_char_map_loop]
  | cons q rest ih =>
    intro i im tx hnone hnd
    cases q with
    | mk c r =>
      rw [from_char_map_loop]
      have hc : map_get? im c = none := hnone c (by simp)
      have hrest : ∀ ck ∈ rest.map Prod.fst, map_get? (map_insert im c i) ck = none := by
        intro ck hck
        have hne : ck ≠ c := by
          simp only [List.map_cons, List.nodup_cons] at hnd
          intro he
          exact hnd.1 (he ▸ hck)
        rw [map_get?_insert_ne im c ck i hne]
        exact hnone ck (by simp [hck])
      have hnd2 : (rest.map Prod.fst).Nodup := by
        simp only [List.map_cons, List.nodup_cons] at hnd
        exact hnd.2
      rw [ih (i + 1) _ _ hrest hnd2, map_insert_length_of_none im c i hc]
      simp
      omega

/-- C10: `from_char_map` builds an `index_map` and texture list with exactly
one entry per character-map entry, every stored index is a valid index into
`textures`, and consequently the `layout.textures[index_map[&c]]` lookups in
`render_text` succeed (no panic) for every character surviving
`filter_string`. -/
theorem from_char_map_invariant (char_map : List (Char × Rect))
    (hnd : (char_map.map Prod.fst).Nodup) :
    (from_char_map char_map).index_map.length = char_map.length ∧
      (from_char_map char_map).textures.length = char_map.length ∧
      (∀ c i, map_get? (from_char_map char_map).index_map c = some i →
        i < (from_char_map char_map).textures.length) ∧
      (∀ s c, c ∈ (from_char_map char_map).filter_string s →
        (glyph_rect (from_char_map char_map) c).isSome) := by
  have htx : (from_char_map char_map).textures.length = char_map.length := by
    show (from_char_map_loop char_map 0 [] []).2.length = _
    rw [from_char_map_loop_tx]
    simp
  have him : (from_char_map char_map).index_map.length = char_map.length := by
    show (from_char_map_loop char_map 0 [] []).1.length = _
    rw [from_char_map_loop_im_len char_map 0 [] [] (fun ck _ => rfl) hnd]
    simp
  have hbound : ∀ c i, map_get? (from_char_map char_map).index_map c = some i →
      i < (from_char_map char_map).textures.length := by
    intro c i hget
    have hmem := map_get?_mem hget
    have := from_char_map_loop_values_lt char_map 0 [] [] char_map.length
      (by intro p hp; cases hp) (by simp) (c, i) hmem
    simpa [htx] using this
  refine ⟨him, htx, hbound, ?_⟩
  intro s c hmem
  have hpred := (List.mem_filter.mp hmem).2
  simp only [Option.isSome_iff_exists] at hpred
  obtain ⟨i, hi⟩ := hpred
  have hg : glyph_rect (from_char_map char_map) c = (from_char_map char_map).textures[i]? := by
    rw [glyph_rect, hi]
  rw [hg, List.getElem?_eq_getElem (hbound c i hi)]
  rfl

theorem from_char_map_invariant_witness :
    (cm_abc.map Prod.fst).Nodup ∧
      ((from_char_map cm_abc).index_map.length = cm_abc.length ∧
        (from_char_map cm_abc).textures.length = cm_abc.length ∧
        (∀ c i, map_get? (from_char_map cm_abc).index_map c = some i →
          i < (from_char_map cm_abc).textures.length) ∧
        (∀ s c, c ∈ (from_char_map cm_abc).filter_string s →
          (glyph_rect (from_char_map cm_abc) c).isSome)) :=
  ⟨by decide, from_char_map_invariant cm_abc (by decide)⟩

/-- C5 counterexample: resolving the empty description yields no typed error
value — it panics (the `.expect` on the empty line list); the error enum has
no empty-description variant at all. -/
theorem into_char_map_empty_panics_cex :
    into_char_map_automatic [] 4 4 = none := by
  decide

/-- C5 (amended): a grid description with zero lines after newline trimming
makes the resolver panic via `.expect("can't create character map from an
empty string")` rather than return a typed empty-description error. -/
theorem into_char_map_empty_desc_panics (desc : List Char) (sx sy : ℕ)
    (h : auto_lines desc = []) : into_char_map_automatic desc sx sy = none := by
  simp [into_char_map_automatic, h]

theorem into_char_map_empty_desc_panics_witness :
    auto_lines ['\n'] = [] ∧ into_char_map_automatic ['\n'] 4 4 = none :=
  ⟨by decide, into_char_map_empty_desc_panics ['\n'] 4 4 (by decide)⟩

theorem into_char_map_automatic_congr (d₁ d₂ : List Char) (sx sy : ℕ)
    (h : trim_newlines d₁ = trim_newlines d₂) :
    into_char_map_automatic d₁ sx sy = into_char_map_automatic d₂ sx sy := by
  simp only [into_char_map_automatic, auto_cell_w, auto_cell_h, auto_max_chars, auto_lines, h]

theorem dropWhile_append_all {p : Char → Bool} (a l : List Char) (ha : ∀ x ∈ a, p x = true) :
    (a ++ l).dropWhile p = l.dropWhile p := by
  induction a with
  | nil => rfl
  | cons x a ih =>
    have hx : p x = true := ha x (by simp)
    rw [List.cons_append, List.dropWhile_cons, if_pos hx]
    exact ih fun y hy => ha y (by simp [hy])

theorem dropWhile_cons_neg {p : Char → Bool} (x : Char) (t : List Char) (hx : p x = false) :
    (x :: t).dropWhile p = x :: t := by
  rw [List.dropWhile_cons, if_neg (by simp [hx])]

theorem trim_newlines_sandwich (a s b : List Char)
    (ha : ∀ x ∈ a, x = '\n') (hb : ∀ x ∈ b, x = '\n')
    (hhd : ∀ x, s.head? = some x → x ≠ '\n') :
    trim_newlines (a ++ s ++ b) = trim_newlines s := by
  have ha' : ∀ x ∈ a, ((x == '\n') : Bool) = true := fun x hx => by simp [ha x hx]
  have hb' : ∀ x ∈ b.reverse, ((x == '\n') : Bool) = true := fun x hx => by
    simp [hb x (List.mem_reverse.mp hx)]
  have hb'' : ∀ x ∈ b, ((x == '\n') : Bool) = true := fun x hx => by simp [hb x hx]
  cases s with
  | nil =>
    rw [trim_newlines, trim_newlines]
    rw [show a ++ ([] : List Char) ++ b = a ++ b by simp]
    rw [dropWhile_append_all a b ha']
    rw [List.dropWhile_eq_nil_iff.mpr fun x hx => hb'' x hx]
    rfl
  | cons x t =>
    have hx : ((x == '\n') : Bool) = false := by
      simpa using hhd x rfl
    rw [trim_newlines, trim_newlines]
    rw [show a ++ (x :: t) ++ b = a ++ (x :: (t ++ b)) by simp]
    rw [dropWhile_append_all a _ ha']
    rw [dropWhile_cons_neg x _ hx, dropWhile_cons_neg x t hx]
    have hrev : (x :: (t ++ b)).reverse = b.reverse ++ (x :: t).reverse := by simp
    rw [hrev, dropWhile_append_all b.reverse _ hb']

/-- C6 counterexample: two leading newlines are both stripped; the claim's
exactly-one-stripping semantics (which would leave an empty first grid line,
putting `A` at row 1 with cell height 1, i.e. rectangle `(0,1)..(2,2)`) does
not hold — the code maps `A` to `(0,0)..(2,2)`. -/
theorem into_char_map_trim_cex :
    (into_char_map_automatic ['\n', '\n', 'A'] 2 2).map (fun m => map_get? m 'A') =
        some (some ⟨natQ 0, natQ 0, natQ 2, natQ 2⟩) ∧
      (⟨natQ 0, natQ 0, natQ 2, natQ 2⟩ : Rect) ≠ ⟨natQ 0, natQ 1, natQ 2, natQ 2⟩ :=
  ⟨by decide, by decide⟩

/-- C6 (amended): grid resolution strips every leading and every trailing
newline (whole runs, not just one), and performs no other trimming:
surrounding a description that does not itself start with a newline by
arbitrary runs of newlines leaves the resolved map unchanged. -/
theorem into_char_map_trims_all_newlines (a s b : List Char) (sx sy : ℕ)
    (ha : ∀ x ∈ a, x = '\n') (hb : ∀ x ∈ b, x = '\n')
    (hhd : ∀ x, s.head? = some x → x ≠ '\n') :
    into_char_map_automatic (a ++ s ++ b) sx sy = into_char_map_automatic s sx sy :=
  into_char_map_automatic_congr _ _ sx sy (trim_newlines_sandwich a s b ha hb hhd)

theorem into_char_map_trims_all_newlines_witness :
    (∀ x ∈ ['\n', '\n'], x = '\n') ∧ (∀ x ∈ ['\n'], x = '\n') ∧
      (∀ x, (['A'] : List Char).head? = some x → x ≠ '\n') ∧
      into_char_map_automatic (['\n', '\n'] ++ ['A'] ++ ['\n']) 2 2 =
        into_char_map_automatic ['A'] 2 2 :=
  ⟨by decide, by decide, by decide,
    into_char_map_trims_all_newlines ['\n', '\n'] ['A'] ['\n'] 2 2 (by decide) (by decide)
      (by decide)⟩

theorem getLast?_cons_of_some {α : Type} (x : α) (l : List α) (y : α)
    (h : l.getLast? = some y) : (x :: l).getLast? = some y := by
  cases l with
  | nil => cases h
  | cons z t => rw [List.getLast?_cons_cons]; exact h

theorem nested_foldl_eq_flat (rw_ rh : ℕ) (L : List (ℕ × List Char)) :
    ∀ m : List (Char × Rect),
      L.foldl (fun m rl => rl.2.enum.foldl
        (fun m ce => map_insert m ce.2 (cell_rect rw_ rh rl.1 ce.1)) m) m =
      (L.flatMap fun rl => rl.2.enum.map fun ce => (rl.1, ce.1, ce.2)).foldl
        (grid_ins rw_ rh) m := by
  induction L with
  | nil => intro m; rfl
  | cons rl L ih =>
    intro m
    rw [List.foldl_cons, List.flatMap_cons, List.foldl_append, ih, List.foldl_map]
    rfl

theorem foldl_grid_ins_get? (rw_ rh : ℕ) (E : List (ℕ × ℕ × Char)) :
    ∀ (m : List (Char × Rect)) (ch : Char),
      map_get? (E.foldl (grid_ins rw_ rh) m) ch =
        match (E.filter fun e => e.2.2 == ch).getLast? with
        | some e => some (cell_rect rw_ rh e.1 e.2.1)
        | none => map_get? m ch := by
  induction E with
  | nil => intro m ch; rfl
  | cons e E ih =>
    intro m ch
    rw [List.foldl_cons, ih]
    rcases eq_or_ne e.2.2 ch with he | he
    · rw [List.filter_cons_of_pos (by simp [he])]
      cases hE : (E.filter fun e2 => e2.2.2 == ch).getLast? with
      | some e2 =>
        rw [getLast?_cons_of_some e _ e2 hE]
      | none =>
        rw [List.getLast?_eq_none_iff.mp hE, List.getLast?_singleton]
        show map_get? (grid_ins rw_ rh m e) ch = _
        rw [grid_ins, ← he, map_get?_insert_self]
    · rw [List.filter_cons_of_neg (by simp [he])]
      cases hE : (E.filter fun e2 => e2.2.2 == ch).getLast? with
      | some e2 => rfl
      | none =>
        show map_get? (grid_ins rw_ rh m e) ch = map_get? m ch
        rw [grid_ins]
        exact map_get?_insert_ne m e.2.2 ch _ (Ne.symm he)

/-- C4: grid-from-text resolution places each character at the rectangle
`(cell_w*col, cell_h*row) .. (cell_w*(col+1), cell_h*(row+1))` of its last
occurrence in row-major order (last write wins for duplicates), with cell
sizes computed by integer division of the image dimensions; in particular
`"AB\nCD"` on a 4×4 image yields the four 2×2 cells (see the witness, which
instantiates this for all four letters). -/
theorem into_char_map_grid_cells (desc : List Char) (sx sy : ℕ) (m : List (Char × Rect))
    (r c : ℕ) (ch : Char)
    (hm : into_char_map_automatic desc sx sy = some m)
    (hlast : ((grid_entries (auto_lines desc)).filter fun e => e.2.2 == ch).getLast? =
      some (r, c, ch)) :
    map_get? m ch = some (cell_rect (auto_cell_w desc sx) (auto_cell_h desc sy) r c) := by
  rw [into_char_map_automatic] at hm
  split at hm
  · exact Option.noConfusion hm
  · split at hm
    · exact Option.noConfusion hm
    · injection hm with hm
      subst hm
      rw [nested_foldl_eq_flat, foldl_grid_ins_get?]
      rw [grid_entries] at hlast
      rw [hlast]

theorem into_char_map_grid_cells_witness :
    into_char_map_automatic grid_AB_CD 4 4 = some map_AB_CD ∧
      map_get? map_AB_CD 'A' = some (cell_rect 2 2 0 0) ∧
      map_get? map_AB_CD 'B' = some (cell_rect 2 2 0 1) ∧
      map_get? map_AB_CD 'C' = some (cell_rect 2 2 1 0) ∧
      map_get? map_AB_CD 'D' = some (cell_rect 2 2 1 1) :=
  ⟨by decide,
    into_char_map_grid_cells grid_AB_CD 4 4 map_AB_CD 0 0 'A' (by decide) (by decide),
    into_char_map_grid_cells grid_AB_CD 4 4 map_AB_CD 0 1 'B' (by decide) (by decide),
    into_char_map_grid_cells grid_AB_CD 4 4 map_AB_CD 1 0 'C' (by decide) (by decide),
    into_char_map_grid_cells grid_AB_CD 4 4 map_AB_CD 1 1 'D' (by decide) (by decide)⟩

theorem flatMap_length_const {α β : Type} (l : List β) (g : β → List α) (L : ℕ)
    (h : ∀ b ∈ l, (g b).length = L) : (l.flatMap g).length = l.length * L := by
  induction l with
  | nil => simp
  | cons b l ih =>
    rw [List.flatMap_cons, List.length_append, h b (by simp),
      ih fun b2 hb => h b2 (by simp [hb]), List.length_cons]
    ring

theorem flatMap_range_getElem? {α : Type} (g : ℕ → List α) (L : ℕ) :
    ∀ (n i j : ℕ), (∀ k, k < n → (g k).length = L) → i < n → j < L →
      ((List.range n).flatMap g)[L * i + j]? = (g i)[j]? := by
  intro n
  induction n with
  | zero => intro i j _ hi _; omega
  | succ n ih =>
    intro i j hg hi hj
    rw [List.range_succ, List.flatMap_append, List.flatMap_cons, List.flatMap_nil,
      List.append_nil]
    have hlen : ((List.range n).flatMap g).length = n * L := by
      rw [flatMap_length_const _ _ L fun b hb => hg b (by
          have := List.mem_range.mp hb
          omega),
        List.length_range]
    rcases Nat.lt_succ_iff_lt_or_eq.mp hi with hi' | hieq
    · have hidx : L * i + j < ((List.range n).flatMap g).length := by
        rw [hlen]
        calc L * i + j < L * i + L := by omega
          _ = L * (i + 1) := by ring
          _ ≤ L * n := Nat.mul_le_mul_left L hi'
          _ = n * L := Nat.mul_comm L n
      rw [List.getElem?_append_left hidx]
      exact ih i j (fun k hk => hg k (by omega)) hi' hj
    · subst hieq
      have hge : ((List.range i).flatMap g).length ≤ L * i + j := by
        rw [hlen, Nat.mul_comm i L]
        exact Nat.le_add_right _ _
      rw [List.getElem?_append_right hge, hlen,
        show L * i + j - i * L = j by rw [Nat.mul_comm i L]; exact Nat.add_sub_cancel_left _ _]

theorem into_vec_getElem? (o : RgbaImage) (x y k : ℕ) (hx : x < o.width) (hy : y < o.height)
    (hk : k < 4) :
    o.into_vec[4 * (y * o.width + x) + k]? = ((o.pix x y).bytes)[k]? := by
  have hrow : ∀ i : ℕ,
      ((List.range o.width).flatMap fun x2 => (o.pix x2 i).bytes).length = o.width * 4 := by
    intro i
    rw [flatMap_length_const (List.range o.width) (fun x2 => (o.pix x2 i).bytes) 4
        fun b _ => rfl,
      List.length_range]
  rw [RgbaImage.into_vec,
    show 4 * (y * o.width + x) + k = (o.width * 4) * y + (4 * x + k) by ring,
    flatMap_range_getElem? (fun y2 => (List.range o.width).flatMap fun x2 => (o.pix x2 y2).bytes)
      (o.width * 4) o.height y (4 * x + k) (fun i _ => hrow i) hy (by omega),
    flatMap_range_getElem? (fun x2 => (o.pix x2 y).bytes) 4 o.width x k (fun i _ => rfl) hx hk]

theorem pixel_bytes_into_vec (o : RgbaImage) (fmt : TextureFormat) (smp : ImageSampler)
    (x y : ℕ) (hx : x < o.width) (hy : y < o.height) :
    pixel_bytes_at ⟨o.width, o.height, o.into_vec, fmt, smp⟩ x y = (o.pix x y).bytes := by
  have h0 := into_vec_getElem? o x y 0 hx hy (by omega)
  have h1 := into_vec_getElem? o x y 1 hx hy (by omega)
  have h2 := into_vec_getElem? o x y 2 hx hy (by omega)
  have h3 := into_vec_getElem? o x y 3 hx hy (by omega)
  rw [Nat.add_zero] at h0
  simp only [pixel_bytes_at, byte_at, List.getD_eq_getElem?_getD, h0, h1, h2, h3, Pix.bytes]
  rfl

theorem nearest_idx_lt (i src_n out_n : ℕ) (h : 0 < src_n) :
    nearest_idx i src_n out_n < src_n := by
  rw [nearest_idx]
  have hlt : src_n - 1 < src_n := by omega
  exact lt_of_le_of_lt (min_le_left _ _) hlt

/-- C7 counterexample: a native 3×2 render rescaled to target height 1 comes
out 1 pixel wide (`(3*1/2) as u32` truncates 1.5 to 1), not the
`round(3*1/2) = 2` the claim asserts. -/
theorem render_text_rescale_round_cex :
    render_text (some font_32) (some tex_3x2) ['a'] (some (natQ 1)) = .ok img_32s ∧
      render_text (some font_32) (some tex_3x2) ['a'] none = .ok img_32n ∧
      spec_round (natQ img_32n.width * natQ 1 / natQ img_32n.height) = 2 ∧
      img_32s.width ≠ 2 :=
  ⟨by decide, by decide, by decide, by decide⟩

/-- C7 (amended): with a target height `h1` requested (and a non-degenerate
native height), the output is `trunc(h1)` tall and `trunc(w0 * h1 / h0)` wide
— truncation, not rounding — and, the resample being nearest-neighbor, every
output pixel is (byte-for-byte) a pixel of the native-size composited image;
with no target height the native-size buffer is returned as-is. -/
theorem render_text_rescale_dims_pixels (f : ImageFont) (ft : BevyImage) (s : List Char)
    (q : ℚ) (native img : BevyImage)
    (hnat : render_text (some f) (some ft) s none = .ok native)
    (hh : 0 < native.height)
    (hok : render_text (some f) (some ft) s (some q) = .ok img) :
    img.height = truncU32 q ∧
      img.width = truncU32 (natQ native.width * q / natQ native.height) ∧
      ∀ x y, x < img.width → y < img.height →
        ∃ sx sy, sx < native.width ∧ sy < native.height ∧
          pixel_bytes_at img x y = pixel_bytes_at native sx sy := by
  simp only [render_text, render_filtered] at hnat hok
  split at hnat
  · injection hnat with hn
    subst hn
    exact absurd hh (Nat.lt_irrefl 0)
  · rename_i hemp
    split at hnat
    · exact RenderOutcome.noConfusion hnat
    · rename_i rects hrects
      split at hnat
      · exact RenderOutcome.noConfusion hnat
      · rename_i hdata
        split at hnat
        · exact RenderOutcome.noConfusion hnat
        · exact RenderOutcome.noConfusion hnat
        · rename_i canvas hcopy
          simp only [apply_font_height] at hnat
          injection hnat with hn
          subst hn
          simp only [if_neg hemp, hrects, if_neg hdata, hcopy, apply_font_height] at hok
          injection hok with hi
          subst hi
          refine ⟨rfl, rfl, ?_⟩
          intro x y hx hy
          have hh' : 0 < canvas.height := hh
          rcases Nat.eq_zero_or_pos canvas.width with hw0 | hwpos
          · exfalso
            have hx' : x < truncU32 (natQ canvas.width * q / natQ canvas.height) := hx
            rw [hw0] at hx'
            have hz : truncU32 (natQ 0 * q / natQ canvas.height) = 0 := by
              simp [natQ_eq, truncU32_eq]
            rw [hz] at hx'
            exact Nat.not_lt_zero x hx'
          · refine ⟨nearest_idx x canvas.width
                (truncU32 (natQ canvas.width * q / natQ canvas.height)),
              nearest_idx y canvas.height (truncU32 q),
              nearest_idx_lt _ _ _ hwpos, nearest_idx_lt _ _ _ hh', ?_⟩
            rw [pixel_bytes_into_vec
                (resize_nearest canvas (truncU32 (natQ canvas.width * q / natQ canvas.height))
                  (truncU32 q)) _ _ x y hx hy,
              pixel_bytes_into_vec canvas _ _ _ _ (nearest_idx_lt _ _ _ hwpos)
                (nearest_idx_lt _ _ _ hh')]
            rfl

theorem render_text_rescale_dims_pixels_witness :
    render_text (some font_32) (some tex_3x2) ['a'] none = .ok img_32n ∧
      0 < img_32n.height ∧
      render_text (some font_32) (some tex_3x2) ['a'] (some (natQ 1)) = .ok img_32s ∧
      (img_32s.height = truncU32 (natQ 1) ∧
        img_32s.width = truncU32 (natQ img_32n.width * natQ 1 / natQ img_32n.height) ∧
        ∀ x y, x < img_32s.width → y < img_32s.height →
          ∃ sx sy, sx < img_32n.width ∧ sy < img_32n.height ∧
            pixel_bytes_at img_32s x y = pixel_bytes_at img_32n sx sy) :=
  ⟨by decide, by decide, by decide,
    render_text_rescale_dims_pixels font_32 tex_3x2 ['a'] (natQ 1) img_32n img_32s
      (by decide) (by decide) (by decide)⟩

end ExtolImageFont
